import Mathlib

/-!
# Go-Learning/main.go

A verification development for `GoLang-GOA/Go-Learning/main.go`: the package-level
declarations, `main` (its active statements and, separately, the block that the source
keeps inside a comment), and `divide`.

Go primitives the program relies on are modelled explicitly:

* `float32` is IEEE-754 binary32, kept as its three bit fields; `/` is IEEE-754 division
  with round-to-nearest, ties-to-even; `==` is the IEEE-754 comparison.
* `int` is a 64-bit two's-complement integer, kept as an `Int` that is wrapped after `+`.
* `fmt.Printf`, `fmt.Println` and `fmt.Errorf` are modelled for the verbs the program uses
  (`%d %t %s %v %f %%`, without flags, width or precision).
* Execution threads a `World` (the package variable `version`, standard output, the
  outcomes that the operating system has in store for the writes to standard output, and a
  ghost log of calls and of error values created) and may abort: by a panic, or because a
  write to a broken pipe makes the runtime end the process with SIGPIPE.
-/

namespace GoLearning

/-! ## float32 -/

/-- An IEEE-754 binary32 value: sign bit, 8-bit biased exponent, 23-bit fraction. -/
structure Float32 where
  sign : Bool
  expo : Nat
  frac : Nat
  expo_lt : expo < 256
  frac_lt : frac < 8388608
deriving DecidableEq

namespace Float32

/-- The value with the given 32-bit pattern (`math.Float32frombits`). -/
def ofBits (n : Nat) : Float32 :=
  { sign := n / 2147483648 % 2 = 1
    expo := n / 8388608 % 256
    frac := n % 8388608
    expo_lt := Nat.mod_lt _ (by decide)
    frac_lt := Nat.mod_lt _ (by decide) }

/-- The 32-bit pattern of a value (`math.Float32bits`). -/
def toBits (x : Float32) : Nat :=
  (if x.sign then 2147483648 else 0) + x.expo * 8388608 + x.frac

def isNaN (x : Float32) : Bool := x.expo = 255 && x.frac ≠ 0

def isInf (x : Float32) : Bool := x.expo = 255 && x.frac = 0

def isZero (x : Float32) : Bool := x.expo = 0 && x.frac = 0

def isFinite (x : Float32) : Bool := x.expo ≠ 255

/-- The quiet NaN produced by an invalid operation. Go does not fix the payload of a NaN
result; no statement below depends on it. -/
def nan : Float32 := ofBits 2143289344

/-- Infinity with the given sign. -/
def inf (s : Bool) : Float32 := ofBits ((if s then 2147483648 else 0) + 2139095040)

/-- Zero with the given sign. -/
def zero (s : Bool) : Float32 := ofBits (if s then 2147483648 else 0)

/-- The integer significand: the fraction, with the hidden bit for normal numbers. -/
def mant (x : Float32) : Nat := if x.expo = 0 then x.frac else x.frac + 8388608

/-- The exponent of the unit in the last place: a finite `x` has magnitude
`mant x * 2 ^ qexp x`. -/
def qexp (x : Float32) : Int := (max x.expo 1 : Nat) - 150

/-- The rational `(-1) ^ sign * mant * 2 ^ qexp`: the exact value of `x` when `x` is
finite. -/
def val (x : Float32) : ℚ := (if x.sign then -1 else 1) * (x.mant : ℚ) * (2 : ℚ) ^ x.qexp

/-- The exact rational value of a finite float; `none` for infinities and NaN. -/
def toRat (x : Float32) : Option ℚ := if x.expo = 255 then none else some x.val

/-- Floor of the base-2 logarithm, by repeated halving (`0` for `0` and `1`). -/
def log2Fuel : Nat → Nat → Nat
  | 0, _ => 0
  | fuel + 1, n => if 2 ≤ n then log2Fuel fuel (n / 2) + 1 else 0

def ilog2 (n : Nat) : Nat := log2Fuel n n

/-- The fraction `n / d` divided by `2 ^ q`, as a numerator and a denominator. -/
def scaleDiv (n d : Nat) (q : Int) : Nat × Nat :=
  if 0 ≤ q then (n, d * 2 ^ q.toNat) else (n * 2 ^ (-q).toNat, d)

/-- The integer nearest to `num / den`, ties to the even one. -/
def rne (num den : Nat) : Nat :=
  let m := num / den
  let r := num % den
  if den < 2 * r ∨ (2 * r = den ∧ m % 2 = 1) then m + 1 else m

/-- Round the non-negative real `n / d * 2 ^ e` (with `0 < d`) to binary32, to nearest with
ties to even, and return the 31 magnitude bits of the result.

The exponent `q` of the unit in the last place is chosen so that the scaled value lies in
`[2^23, 2^24)`, and is never below `-149` (subnormals). Adding the rounded significand to
the exponent field lets a carry out of the significand move to the next exponent; anything
at or above the pattern of infinity is infinity. -/
def roundMag (n d : Nat) (e : Int) : Nat :=
  if n = 0 then 0 else
  let e0 : Int := (ilog2 n : Int) - (ilog2 d : Int) + e
  let q1 : Int := max (e0 - 1) (-126) - 23
  let s1 := scaleDiv n d (q1 - e)
  let q : Int := if 16777216 ≤ s1.1 / s1.2 then q1 + 1 else q1
  let s := scaleDiv n d (q - e)
  min ((q + 149).toNat * 8388608 + rne s.1 s.2) 2139095040

/-- Conversion of an integer constant to `float32`. -/
def ofInt (k : Int) : Float32 :=
  ofBits ((if k < 0 then 2147483648 else 0) + roundMag k.natAbs 1 0)

/-- IEEE-754 division, Go's `/` on `float32` operands. -/
def div (a b : Float32) : Float32 :=
  let s := xor a.sign b.sign
  if a.isNaN || b.isNaN then nan
  else if a.isInf then (if b.isInf then nan else inf s)
  else if b.isInf then zero s
  else if b.isZero then (if a.isZero then nan else inf s)
  else if a.isZero then zero s
  else ofBits ((if s then 2147483648 else 0) + roundMag a.mant b.mant (a.qexp - b.qexp))

/-- IEEE-754 equality, Go's `==` on `float32` operands: NaN equals nothing, and the two
zeros are equal. -/
def eq (a b : Float32) : Bool :=
  !a.isNaN && !b.isNaN && (decide (a = b) || (a.isZero && b.isZero))

end Float32

/-! ## Execution model -/

/-- A Go `error` value that is not nil; `Error()` returns `msg`. A nil `error` is
`none : Option GoError`. -/
structure GoError where
  msg : String
deriving DecidableEq

/-- Ghost events recorded while the program runs. -/
inductive Event where
  | call (fn : String)
  | errorValue (msg : String)
deriving DecidableEq

/-- What the operating system does with one write to standard output: it takes all the
bytes; it takes the first `written` characters and reports the error `msg` (a closed
descriptor, a full device); or the descriptor is a broken pipe, for which the Go runtime ends
the process with SIGPIPE. -/
inductive WriteOutcome where
  | ok
  | fail (written : Nat) (msg : String)
  | sigpipe
deriving DecidableEq

/-- What a Go function can read or change besides its arguments: the package-level variable
`version`, the bytes written to standard output, the outcomes of the writes to come (the
first write meets the head of `writes`; once the list is used up every write succeeds), and
the ghost event log. -/
structure World where
  version : String
  stdout : String
  events : List Event
  writes : List WriteOutcome
deriving DecidableEq

/-- Reasons for which a run stops before the function returns. A process ended by SIGPIPE
leaves the ghost log it had reached. -/
inductive Abort where
  | panic (msg : String)
  | outOfFuel
  | unmodelled
  | sigpipe (log : List Event)
deriving DecidableEq

/-- A Go computation returning an `α`. -/
abbrev Exec (α : Type) : Type := World → Except Abort (α × World)

def Exec.pure {α : Type} (a : α) : Exec α := fun w => .ok (a, w)

def Exec.bind {α β : Type} (m : Exec α) (f : α → Exec β) : Exec β := fun w =>
  match m w with
  | .ok (a, w1) => f a w1
  | .error e => .error e

instance : Monad Exec where
  pure := Exec.pure
  bind := Exec.bind

def abort {α : Type} (e : Abort) : Exec α := fun _ => .error e

/-- Record that the function `fn` has been entered. -/
def enter (fn : String) : Exec Unit := fun w =>
  .ok ((), { w with events := w.events ++ [Event.call fn] })

/-- Read the package-level variable `version`. -/
def readVersion : Exec String := fun w => .ok (w.version, w)

/-- The value returned by a run, if it returned. -/
def Exec.value? {α : Type} (r : Except Abort (α × World)) : Option α :=
  match r with
  | .ok (a, _) => some a
  | .error _ => none

/-- The world a run ended in, if it returned. -/
def Exec.world? {α : Type} (r : Except Abort (α × World)) : Option World :=
  match r with
  | .ok (_, w) => some w
  | .error _ => none

/-- Go `int` addition: 64-bit two's complement, wrapping. -/
def intAdd (x y : Int) : Int :=
  (x + y + 9223372036854775808) % 18446744073709551616 - 9223372036854775808

/-! ## fmt -/

/-- Operands that the program passes to `fmt` functions. -/
inductive GoValue where
  | str (s : String)
  | int (i : Int)
  | bool (b : Bool)
  | float32 (x : Float32)
  | err (e : GoError)
  | intArray (xs : List Int)
  | strArray (xs : List String)

namespace fmt

/-- Decimal rendering of an `int`. -/
def fmtInt (i : Int) : String :=
  if i < 0 then "-" ++ Nat.repr i.natAbs else Nat.repr i.natAbs

def fmtBool (b : Bool) : String := if b then "true" else "false"

/-- The digits of `n`, padded with zeros on the left to at least `width` characters. -/
def padZeros (width : Nat) (n : Nat) : String :=
  let d := Nat.repr n
  String.mk (List.replicate (width - d.length) '0') ++ d

/-- The verb `%f` applied to a `float32`: the exact value rounded to six decimals
(ties to even), `+Inf`, `-Inf` or `NaN`. -/
def fmtFloat (x : Float32) : String :=
  if x.isNaN then "NaN"
  else if x.isInf then (if x.sign then "-Inf" else "+Inf")
  else
    let s := Float32.scaleDiv (x.mant * 1000000) 1 (-x.qexp)
    let scaled := Float32.rne s.1 s.2
    (if x.sign then "-" else "") ++ Nat.repr (scaled / 1000000) ++ "." ++
      padZeros 6 (scaled % 1000000)

/-- One verb applied to one operand; `none` where the combination is outside the modelled
part of `fmt`. -/
def fmtVerb (verb : Char) (v : GoValue) : Option String :=
  match v with
  | .str s => if verb = 's' ∨ verb = 'v' then some s else none
  | .int i => if verb = 'd' ∨ verb = 'v' then some (fmtInt i) else none
  | .bool b => if verb = 't' ∨ verb = 'v' then some (fmtBool b) else none
  | .float32 x => if verb = 'f' then some (fmtFloat x) else none
  | .err e => if verb = 's' ∨ verb = 'v' then some e.msg else none
  | .intArray xs =>
      if verb = 'd' ∨ verb = 'v' then some ("[" ++ " ".intercalate (xs.map fmtInt) ++ "]")
      else none
  | .strArray xs =>
      if verb = 's' ∨ verb = 'v' then some ("[" ++ " ".intercalate xs ++ "]") else none

/-- Expand a format, one character at a time; `afterPercent` tells that the previous
character was an unmatched `%`. The result is `none` when the format leaves the modelled
part of `fmt`: a verb that `fmtVerb` rejects, a missing or an extra operand, a final `%`. -/
def expand : List Char → Bool → List GoValue → Option String
  | [], false, [] => some ""
  | [], false, _ :: _ => none
  | [], true, _ => none
  | c :: cs, false, args =>
      if c = '%' then expand cs true args
      else (expand cs false args).map (fun r => String.singleton c ++ r)
  | c :: cs, true, args =>
      if c = '%' then (expand cs false args).map (fun r => "%" ++ r)
      else
        match args with
        | [] => none
        | a :: rest =>
            match fmtVerb c a, expand cs false rest with
            | some s, some r => some (s ++ r)
            | _, _ => none

def Sprintf (format : String) (args : List GoValue) : Option String :=
  expand format.data false args

/-- The operands in their default format, separated by spaces, and a newline. -/
def Sprintln (args : List GoValue) : Option String :=
  (args.mapM (fmtVerb 'v')).map (fun parts => " ".intercalate parts ++ "\n")

/-- Write `s` to standard output, as the function `fn` of `fmt` does, and return the number
of bytes written and the error. The outcome is the one the world has in store: all of `s` is
appended and the error is nil; or a part of `s` is appended and a non-nil error is returned;
or the process is ended by SIGPIPE. -/
def write (fn : String) (s? : Option String) : Exec (Nat × Option GoError) := fun w =>
  match s? with
  | none => .error Abort.unmodelled
  | some s =>
      match w.writes with
      | [] =>
          .ok ((s.utf8ByteSize, none),
            { w with stdout := w.stdout ++ s, events := w.events ++ [Event.call fn] })
      | WriteOutcome.ok :: rest =>
          .ok ((s.utf8ByteSize, none),
            { w with stdout := w.stdout ++ s, events := w.events ++ [Event.call fn],
                     writes := rest })
      | WriteOutcome.fail written msg :: rest =>
          .ok (((String.mk (s.data.take written)).utf8ByteSize, some { msg := msg }),
            { w with stdout := w.stdout ++ String.mk (s.data.take written),
                     events := w.events ++ [Event.call fn, Event.errorValue msg],
                     writes := rest })
      | WriteOutcome.sigpipe :: _ =>
          .error (Abort.sigpipe (w.events ++ [Event.call fn]))

def Printf (format : String) (args : List GoValue) : Exec (Nat × Option GoError) :=
  write "fmt.Printf" (Sprintf format args)

def Println (args : List GoValue) : Exec (Nat × Option GoError) :=
  write "fmt.Println" (Sprintln args)

/-- A new error value whose message is the expanded format. -/
def Errorf (format : String) (args : List GoValue) : Exec GoError := fun w =>
  match Sprintf format args with
  | none => .error Abort.unmodelled
  | some s =>
      .ok ({ msg := s },
        { w with events := w.events ++ [Event.call "fmt.Errorf", Event.errorValue s] })

end fmt

/-! ## The program -/

/-- The initial value of `var version string`. -/
def versionInit : String := "1.0.0"

def author : String := "Go Developer"

def license : String := "MIT"

/-- Source lines 76-81. -/
def divide (a b : Float32) : Exec (Float32 × Option GoError) := do
  enter "divide"
  if Float32.eq b (Float32.ofInt 0) then
    let e ← fmt.Errorf "division by zero is not allowed" []
    return (Float32.ofInt 0, some e)
  return (Float32.div a b, none)

/-- The loop `for i, day := range days`, from index `i` on. -/
def rangeDays : Int → List String → Exec Unit
  | _, [] => pure ()
  | i, day :: rest => do
      let _ ← fmt.Printf "Day %d: %s\n" [.int (intAdd i 1), .str day]
      rangeDays (intAdd i 1) rest

/-- The loop `for i := 0; i < len(numbers); i++`, from `i` on; an index outside the array
panics. -/
def numbersLoop (numbers : List Int) : Nat → Int → Exec Unit
  | 0, _ => abort Abort.outOfFuel
  | fuel + 1, i =>
      if i < numbers.length then do
        if i < 0 then abort (Abort.panic "index out of range")
        match numbers[i.toNat]? with
        | none => abort (Abort.panic "index out of range")
        | some v =>
            let _ ← fmt.Printf "Number %d: %d\n" [.int (intAdd i 1), .int v]
            numbersLoop numbers fuel (intAdd i 1)
      else pure ()

/-- The loop `for _, num := range numbers { sum += num }`. -/
def sumLoop (sum : Int) : List Int → Int
  | [] => sum
  | num :: rest => sumLoop (intAdd sum num) rest

/-- Source lines 13-63, the statements of `main` that the source keeps inside a
`/* ... */` comment. They are not part of `main`. -/
def commentedBlock : Exec Unit := do
  let _ ← fmt.Println [.str "Hello, World!"]
  let name : String := "GoLang"
  let _ ← fmt.Printf "Welcome to %s programming!\n" [.str name]
  let version ← readVersion
  let _ ← fmt.Printf "Version: %s, Author: %s, License: %s\n"
    [.str version, .str author, .str license]
  let _ ← (do
    let name : String := "Gopher"
    fmt.Printf "Inside block, name is: %s\n" [.str name])
  let _ ← fmt.Printf "Outside block, name is: %s\n" [.str name]
  let count : Int := 10
  let _ ← fmt.Printf "Count is: %d\n" [.int count]
  let numbers : List Int := [1, 2, 3, 4, 5]
  let _ ← fmt.Printf "Numbers: %v\n" [.intArray numbers]
  let days : List String :=
    ["Sunday", "Monday", "Tuesday", "Wednesday", "Thursday", "Friday", "Saturday"]
  let _ ← fmt.Printf "Days of the week: %v\n" [.strArray days]
  rangeDays 0 days
  numbersLoop numbers (numbers.length + 1) 0
  let sum : Int := sumLoop 0 numbers
  let _ ← fmt.Printf "Sum of numbers: %d\n" [.int sum]
  let (result, err) ← divide (Float32.ofInt 10) (Float32.ofInt 3)
  match err with
  | some e =>
      let _ ← fmt.Printf "Error: %s\n" [.err e]
  | none =>
      let _ ← fmt.Printf "Result: %f\n" [.float32 result]

/-- Source lines 12-74: the statements of `main` outside the comment. -/
def main : Exec Unit := do
  enter "main"
  let z : Int := 10
  let _ ← fmt.Printf "Value of z: %d\n" [.int z]
  let (x, y) : Int × Int := (10, 10)
  let _ ← fmt.Printf "x == y: %t\n" [.bool (x == y)]
  let _ ← fmt.Printf "x != y: %t\n" [.bool (x != y)]
  let _ ← fmt.Printf "x > y: %t\n" [.bool (decide (x > y))]
  let _ ← fmt.Printf "x == z: %t\n" [.bool (x == z)]

/-- The world in which the program starts when every write to standard output succeeds. -/
def World.init : World :=
  { version := versionInit, stdout := "", events := [], writes := [] }

/-- The world in which the program starts when the writes to standard output meet the
outcomes `os`, in this order. -/
def World.withWrites (os : List WriteOutcome) : World :=
  { version := versionInit, stdout := "", events := [], writes := os }

/-- Every write that the world has in store succeeds. -/
def World.writesSucceed (w : World) : Bool :=
  w.writes.all (fun o => decide (o = WriteOutcome.ok))

/-- The exit status of the process: `0` when `main` returns, `2` when it panics, and `141`
(128 + 13, as a shell reports it) when it is ended by SIGPIPE. -/
def exitCode {α : Type} (r : Except Abort (α × World)) : Option Nat :=
  match r with
  | .ok _ => some 0
  | .error (Abort.panic _) => some 2
  | .error (Abort.sigpipe _) => some 141
  | .error _ => none

/-- The ghost log at the end of a run that returned or was ended by SIGPIPE. -/
def finalLog {α : Type} (r : Except Abort (α × World)) : Option (List Event) :=
  match r with
  | .ok (_, w) => some w.events
  | .error (Abort.sigpipe log) => some log
  | .error _ => none

/-- A run that started with the log `base` has returned or was ended by SIGPIPE, and what it
added to the log holds no call of `divide` and no call of `fmt.Errorf`. -/
def AvoidsDivide {α : Type} (base : List Event) (r : Except Abort (α × World)) : Prop :=
  ∃ l, finalLog r = some (base ++ l) ∧
    Event.call "divide" ∉ l ∧ Event.call "fmt.Errorf" ∉ l

/-- Break a text into the lines it consists of; `cur` holds the current line, reversed. -/
def linesAux : List Char → List Char → List String
  | [], [] => []
  | [], cur => [String.mk cur.reverse]
  | c :: cs, cur =>
      if c = '\n' then String.mk cur.reverse :: linesAux cs [] else linesAux cs (c :: cur)

/-- The lines of a text, each without its newline. -/
def lines (s : String) : List String := linesAux s.data []

open Float32

/-! ## Rounding and IEEE-754 division -/

/-- With enough fuel, `log2Fuel` is the floor of the base-2 logarithm. -/
theorem log2Fuel_spec (fuel : Nat) : ∀ n : Nat, n ≤ fuel → 0 < n →
    2 ^ log2Fuel fuel n ≤ n ∧ n < 2 ^ (log2Fuel fuel n + 1) := by
  induction fuel with
  | zero => intro n h1 h2; omega
  | succ k ih =>
    intro n h1 h2
    unfold log2Fuel
    split
    · rename_i h
      obtain ⟨ha, hb⟩ := ih (n / 2) (by omega) (by omega)
      constructor
      · rw [pow_succ]; omega
      · rw [pow_succ]; omega
    · simp; omega

/-- The function `ilog2` is the floor of the base-2 logarithm of a positive number. -/
theorem ilog2_spec (n : Nat) (h : 0 < n) : 2 ^ ilog2 n ≤ n ∧ n < 2 ^ (ilog2 n + 1) :=
  log2Fuel_spec n n le_rfl h

/-- The pair returned by `scaleDiv` has a positive denominator and is `n / d / 2 ^ k`. -/
theorem scaleDiv_spec (n d : Nat) (k : Int) (hd : 0 < d) :
    0 < (scaleDiv n d k).2 ∧
      ((scaleDiv n d k).1 : ℚ) / ((scaleDiv n d k).2 : ℚ) = (n : ℚ) / d * (2 : ℚ) ^ (-k) := by
  have hd' : (d : ℚ) ≠ 0 := by exact_mod_cast hd.ne'
  unfold scaleDiv
  split
  · rename_i h
    obtain ⟨j, rfl⟩ := Int.eq_ofNat_of_zero_le h
    refine ⟨by positivity, ?_⟩
    simp only [Int.toNat_ofNat, Nat.cast_mul, Nat.cast_pow, Nat.cast_ofNat, zpow_neg,
      zpow_natCast]
    field_simp
  · rename_i h
    obtain ⟨j, hj⟩ := Int.eq_ofNat_of_zero_le (show 0 ≤ -k by omega)
    refine ⟨hd, ?_⟩
    rw [hj]
    simp only [Int.toNat_ofNat, Nat.cast_mul, Nat.cast_pow, Nat.cast_ofNat, zpow_natCast]
    field_simp

/-- The value of `rne` is a nearest integer of the fraction. -/
theorem rne_nearest (num den : Nat) (hd : 0 < den) (k : Int) :
    |((rne num den : Nat) : ℚ) - (num : ℚ) / den| ≤ |(k : ℚ) - (num : ℚ) / den| := by
  have hdq : (0 : ℚ) < den := by exact_mod_cast hd
  have hnum : (num : ℚ) = den * (num / den : Nat) + (num % den : Nat) := by
    exact_mod_cast (Nat.div_add_mod num den).symm
  have hr : ((num % den : Nat) : ℚ) < den := by exact_mod_cast Nat.mod_lt num hd
  have hr0 : (0 : ℚ) ≤ ((num % den : Nat) : ℚ) := by positivity
  set fl : ℚ := ((num / den : Nat) : ℚ) with hfl
  set r : ℚ := ((num % den : Nat) : ℚ) with hrdef
  have hs : (num : ℚ) / den = fl + r / den := by
    rw [hnum]; field_simp; ring
  have hrd0 : 0 ≤ r / den := by positivity
  have hrd1 : r / den < 1 := by rw [div_lt_one hdq]; exact hr
  -- the integer k is at most the floor or at least the floor plus one
  have hk : (k : ℚ) ≤ fl ∨ fl + 1 ≤ (k : ℚ) := by
    rcases le_or_lt k ((num / den : Nat) : Int) with h | h
    · left
      have h1 : (k : ℚ) ≤ (((num / den : Nat) : Int) : ℚ) := Int.cast_le.mpr h
      rw [Int.cast_natCast] at h1
      exact h1
    · right
      have h0 : ((num / den : Nat) : Int) + 1 ≤ k := by omega
      have h1 : ((((num / den : Nat) : Int) + 1 : Int) : ℚ) ≤ (k : ℚ) := Int.cast_le.mpr h0
      rw [Int.cast_add, Int.cast_natCast, Int.cast_one] at h1
      exact h1
  rw [hs]
  unfold rne
  simp only
  split
  · rename_i hup
    have h2 : (den : ℚ) ≤ 2 * r := by
      rcases hup with h | h
      · rw [hrdef]; exact_mod_cast h.le
      · rw [hrdef]; exact_mod_cast h.1.ge
    have h3 : 1 / 2 ≤ r / den := by
      rw [le_div_iff₀ hdq]; linarith
    rw [Nat.cast_add, Nat.cast_one, ← hfl]
    rcases hk with h | h
    · rw [abs_of_nonneg (by linarith), abs_of_nonpos (by linarith)]; linarith
    · rw [abs_of_nonneg (by linarith), abs_of_nonneg (by linarith)]; linarith
  · rename_i hdown
    have h2 : 2 * r ≤ (den : ℚ) := by
      have : 2 * (num % den) ≤ den := by
        by_contra hc
        exact hdown (Or.inl (by omega))
      rw [hrdef]; exact_mod_cast this
    have h3 : r / den ≤ 1 / 2 := by
      rw [div_le_iff₀ hdq]; linarith
    rw [← hfl]
    rcases hk with h | h
    · rw [abs_of_nonpos (by linarith), abs_of_nonpos (by linarith)]; linarith
    · rw [abs_of_nonpos (by linarith), abs_of_nonneg (by linarith)]; linarith

/-- The scaled fraction, as a rational: `n / d * 2 ^ e / 2 ^ q`. -/
theorem scaleDiv_shift (n d : Nat) (e q : Int) (hd : 0 < d) :
    ((scaleDiv n d (q - e)).1 : ℚ) / ((scaleDiv n d (q - e)).2 : ℚ)
      = (n : ℚ) / d * (2 : ℚ) ^ e * (2 : ℚ) ^ (-q) := by
  rw [(scaleDiv_spec n d (q - e) hd).2, mul_assoc, ← zpow_add₀ (two_ne_zero)]
  congr 2
  ring

/-- The fraction lies strictly between two powers of two given by the bit lengths. -/
theorem frac_bounds (n d : Nat) (e : Int) (hn : 0 < n) (hd : 0 < d) :
    (2 : ℚ) ^ ((ilog2 n : Int) - (ilog2 d : Int) + e - 1) < (n : ℚ) / d * (2 : ℚ) ^ e ∧
      (n : ℚ) / d * (2 : ℚ) ^ e < (2 : ℚ) ^ ((ilog2 n : Int) - (ilog2 d : Int) + e + 1) := by
  obtain ⟨hn1, hn2⟩ := ilog2_spec n hn
  obtain ⟨hd1, hd2⟩ := ilog2_spec d hd
  have hn1q : (2 : ℚ) ^ (ilog2 n) ≤ n := by exact_mod_cast hn1
  have hn2q : (n : ℚ) < (2 : ℚ) ^ (ilog2 n + 1) := by exact_mod_cast hn2
  have hd1q : (2 : ℚ) ^ (ilog2 d) ≤ d := by exact_mod_cast hd1
  have hd2q : (d : ℚ) < (2 : ℚ) ^ (ilog2 d + 1) := by exact_mod_cast hd2
  have hdq : (0 : ℚ) < d := by exact_mod_cast hd
  have hnq : (0 : ℚ) < n := by exact_mod_cast hn
  have he : (0 : ℚ) < (2 : ℚ) ^ e := zpow_pos (by norm_num) e
  have hA : (0 : ℚ) < (2 : ℚ) ^ (ilog2 n) := by positivity
  have hB : (0 : ℚ) < (2 : ℚ) ^ (ilog2 d) := by positivity
  constructor
  · have h1 : (2 : ℚ) ^ ((ilog2 n : Int) - (ilog2 d : Int) + e - 1)
        = (2 : ℚ) ^ (ilog2 n) / (2 : ℚ) ^ (ilog2 d + 1) * (2 : ℚ) ^ e := by
      have : (ilog2 n : Int) - (ilog2 d : Int) + e - 1
          = (ilog2 n : Int) + (-((ilog2 d + 1 : Nat) : Int)) + e := by push_cast; ring
      rw [this, zpow_add₀ two_ne_zero, zpow_add₀ two_ne_zero, zpow_neg, zpow_natCast,
        zpow_natCast, div_eq_mul_inv]
    rw [h1]
    apply mul_lt_mul_of_pos_right _ he
    exact div_lt_div₀' hn1q hd2q hnq hdq
  · have h1 : (2 : ℚ) ^ ((ilog2 n : Int) - (ilog2 d : Int) + e + 1)
        = (2 : ℚ) ^ (ilog2 n + 1) / (2 : ℚ) ^ (ilog2 d) * (2 : ℚ) ^ e := by
      have : (ilog2 n : Int) - (ilog2 d : Int) + e + 1
          = ((ilog2 n + 1 : Nat) : Int) + (-(ilog2 d : Int)) + e := by push_cast; ring
      rw [this, zpow_add₀ two_ne_zero, zpow_add₀ two_ne_zero, zpow_neg, zpow_natCast,
        zpow_natCast, div_eq_mul_inv]
    rw [h1]
    apply mul_lt_mul_of_pos_right _ he
    exact div_lt_div₀ hn2q hd1q (by positivity) hB

/-- What `roundMag` computes: an exponent `q` and a significand `m`, where `m` is a nearest
integer of the exact value in units of `2 ^ q`, and that scaled value lies below `2 ^ 24` and,
above the subnormal range, at or above `2 ^ 23`. -/
theorem roundMag_spec (n d : Nat) (e : Int) (hn : 0 < n) (hd : 0 < d) :
    ∃ (q : Int) (m : Nat),
      roundMag n d e = min ((q + 149).toNat * 8388608 + m) 2139095040 ∧
      -149 ≤ q ∧
      (n : ℚ) / d * (2 : ℚ) ^ e * (2 : ℚ) ^ (-q) < 16777216 ∧
      (8388608 ≤ (n : ℚ) / d * (2 : ℚ) ^ e * (2 : ℚ) ^ (-q) ∨ q = -149) ∧
      ∀ k : Int, |(m : ℚ) - (n : ℚ) / d * (2 : ℚ) ^ e * (2 : ℚ) ^ (-q)|
        ≤ |(k : ℚ) - (n : ℚ) / d * (2 : ℚ) ^ e * (2 : ℚ) ^ (-q)| := by
  obtain ⟨hXl, hXu⟩ := frac_bounds n d e hn hd
  set X : ℚ := (n : ℚ) / d * (2 : ℚ) ^ e with hX
  set e0 : Int := (ilog2 n : Int) - (ilog2 d : Int) + e with he0
  set q1 : Int := max (e0 - 1) (-126) - 23 with hq1
  have hpos : ∀ z : Int, (0 : ℚ) < (2 : ℚ) ^ z := fun z => zpow_pos (by norm_num) z
  have hu : X * (2 : ℚ) ^ (-q1) < (2 : ℚ) ^ (e0 + 1 - q1) := by
    have : (2 : ℚ) ^ (e0 + 1 - q1) = (2 : ℚ) ^ (e0 + 1) * (2 : ℚ) ^ (-q1) := by
      rw [← zpow_add₀ two_ne_zero]; congr 1
    rw [this]
    exact mul_lt_mul_of_pos_right hXu (hpos _)
  have hl : (2 : ℚ) ^ (e0 - 1 - q1) < X * (2 : ℚ) ^ (-q1) := by
    have : (2 : ℚ) ^ (e0 - 1 - q1) = (2 : ℚ) ^ (e0 - 1) * (2 : ℚ) ^ (-q1) := by
      rw [← zpow_add₀ two_ne_zero]; congr 1
    rw [this]
    exact mul_lt_mul_of_pos_right hXl (hpos _)
  have hhalf : X * (2 : ℚ) ^ (-(q1 + 1)) = X * (2 : ℚ) ^ (-q1) / 2 := by
    rw [neg_add, zpow_add₀ two_ne_zero, zpow_neg_one]; ring
  have hden := (scaleDiv_spec n d (q1 - e) hd).1
  have hs1 := scaleDiv_shift n d e q1 hd
  by_cases hbig : 16777216 ≤ (scaleDiv n d (q1 - e)).1 / (scaleDiv n d (q1 - e)).2
  · -- the scaled value has 25 bits: one more binary place is dropped
    have hge : (16777216 : ℚ) ≤ X * (2 : ℚ) ^ (-q1) := by
      rw [← hs1, le_div_iff₀ (by exact_mod_cast hden)]
      have := (Nat.le_div_iff_mul_le hden).mp hbig
      exact_mod_cast this
    have hcase : -126 ≤ e0 - 1 := by
      by_contra hc
      have hq : q1 = -149 := by rw [hq1, max_eq_right (by omega)]; norm_num
      have h24 : (2 : ℚ) ^ (e0 + 1 - q1) ≤ (2 : ℚ) ^ (24 : Int) :=
        zpow_le_zpow_right₀ (by norm_num) (by omega)
      have : (2 : ℚ) ^ (24 : Int) = 16777216 := by norm_num
      linarith
    have hq : q1 = e0 - 24 := by rw [hq1, max_eq_left hcase]; ring
    have h25 : (2 : ℚ) ^ (e0 + 1 - q1) = 33554432 := by
      have : e0 + 1 - q1 = 25 := by omega
      rw [this]; norm_num
    refine ⟨q1 + 1, rne (scaleDiv n d (q1 + 1 - e)).1 (scaleDiv n d (q1 + 1 - e)).2,
      ?_, by omega, ?_, ?_, ?_⟩
    · simp only [roundMag, hn.ne', if_false, ← he0, ← hq1, hbig, if_true]
    · rw [hhalf]; linarith
    · left; rw [hhalf]; linarith
    · intro k
      rw [← scaleDiv_shift n d e (q1 + 1) hd]
      exact rne_nearest _ _ (scaleDiv_spec n d (q1 + 1 - e) hd).1 k
  · have hlt : X * (2 : ℚ) ^ (-q1) < 16777216 := by
      rw [← hs1, div_lt_iff₀ (by exact_mod_cast hden)]
      have : (scaleDiv n d (q1 - e)).1 < 16777216 * (scaleDiv n d (q1 - e)).2 := by
        by_contra hc
        exact hbig ((Nat.le_div_iff_mul_le hden).mpr (by omega))
      exact_mod_cast this
    refine ⟨q1, rne (scaleDiv n d (q1 - e)).1 (scaleDiv n d (q1 - e)).2,
      ?_, by omega, hlt, ?_, ?_⟩
    · simp only [roundMag, hn.ne', if_false, ← he0, ← hq1, hbig]
    · by_cases hcase : -126 ≤ e0 - 1
      · left
        have hq : q1 = e0 - 24 := by rw [hq1, max_eq_left hcase]; ring
        have h23 : (2 : ℚ) ^ (e0 - 1 - q1) = 8388608 := by
          have : e0 - 1 - q1 = 23 := by omega
          rw [this]; norm_num
        linarith
      · right
        rw [hq1, max_eq_right (by omega)]; norm_num
    · intro k
      rw [← hs1]
      exact rne_nearest _ _ hden k

/-- Decoding the bit pattern that `roundMag` assembles: below the pattern of infinity it is
the finite float of magnitude `m * 2 ^ q`. -/
theorem ofBits_val (s : Bool) (q : Int) (m : Nat) (hq : -149 ≤ q) (hm : m ≤ 16777216)
    (hm2 : 8388608 ≤ m ∨ q = -149)
    (hB : (q + 149).toNat * 8388608 + m < 2139095040) :
    (ofBits ((if s then 2147483648 else 0) + ((q + 149).toNat * 8388608 + m))).expo ≠ 255 ∧
    (ofBits ((if s then 2147483648 else 0) + ((q + 149).toNat * 8388608 + m))).val
      = (if s then -1 else 1) * (m : ℚ) * (2 : ℚ) ^ q := by
  obtain ⟨Q, hQ⟩ := Int.eq_ofNat_of_zero_le (show 0 ≤ q + 149 by omega)
  have hq' : q = (Q : Int) - 149 := by omega
  subst hq'
  have hT : ((Q : Int) - 149 + 149).toNat = Q := by omega
  rw [hT] at hB ⊢
  have hsign : (ofBits ((if s then 2147483648 else 0) + (Q * 8388608 + m))).sign = s := by
    cases s <;> simp only [ofBits, Bool.false_eq_true, if_false, if_true, decide_eq_true_eq,
      decide_eq_false_iff_not] <;> omega
  have hexpo : (ofBits ((if s then 2147483648 else 0) + (Q * 8388608 + m))).expo
      = Q + m / 8388608 := by
    cases s <;> simp only [ofBits, Bool.false_eq_true, if_false, if_true] <;> omega
  have hfrac : (ofBits ((if s then 2147483648 else 0) + (Q * 8388608 + m))).frac
      = m % 8388608 := by
    cases s <;> simp only [ofBits, Bool.false_eq_true, if_false, if_true] <;> omega
  refine ⟨by rw [hexpo]; omega, ?_⟩
  simp only [val, mant, qexp, hsign, hexpo, hfrac]
  rcases Nat.lt_or_ge m 8388608 with h1 | h1
  · -- subnormal
    have hQ0 : Q = 0 := by omega
    subst hQ0
    have e1 : 0 + m / 8388608 = 0 := by omega
    have e2 : m % 8388608 = m := by omega
    rw [e1, e2]
    norm_num
  · rcases Nat.lt_or_ge m 16777216 with h2 | h2
    · -- normal
      have e1 : Q + m / 8388608 = Q + 1 := by omega
      have e2 : m % 8388608 + 8388608 = m := by omega
      rw [e1, if_neg (show ¬ (Q + 1 = 0) by omega), e2,
        max_eq_left (show 1 ≤ Q + 1 by omega)]
      congr 2
      push_cast; ring
    · -- the significand was rounded up to the next power of two
      have hm' : m = 16777216 := by omega
      subst hm'
      have e1 : Q + 16777216 / 8388608 = Q + 2 := by omega
      rw [e1, if_neg (show ¬ (Q + 2 = 0) by omega), max_eq_left (show 1 ≤ Q + 2 by omega)]
      have e3 : (((Q + 2 : Nat) : Int) - 150) = ((Q : Int) - 149) + 1 := by push_cast; ring
      rw [e3, zpow_add_one₀ two_ne_zero]
      norm_num
      split <;> ring

/-- A nearest integer of a value below `2 ^ 24` is at most `2 ^ 24`, and a nearest integer of
a value at or above `2 ^ 23` is at least `2 ^ 23`. -/
theorem nearest_bounds (m : Nat) (s : ℚ)
    (hnear : ∀ k : Int, |(m : ℚ) - s| ≤ |(k : ℚ) - s|) :
    (s < 16777216 → m ≤ 16777216) ∧ (8388608 ≤ s → 8388608 ≤ m) := by
  constructor
  · intro hs
    by_contra hc
    have hm : (16777216 : ℚ) + 1 ≤ m := by
      have : 16777216 + 1 ≤ m := by omega
      exact_mod_cast this
    have h := hnear 16777216
    rw [abs_of_nonneg (by linarith), abs_of_nonneg (by push_cast; linarith)] at h
    push_cast at h
    linarith
  · intro hs
    by_contra hc
    have hm : (m : ℚ) + 1 ≤ 8388608 := by
      have : m + 1 ≤ 8388608 := by omega
      exact_mod_cast this
    have h := hnear 8388608
    rw [abs_of_nonpos (by linarith), abs_of_nonpos (by push_cast; linarith)] at h
    push_cast at h
    linarith

/-- The rounded significand is at least as close to the exact value as any number
`M * 2 ^ qv` with a 24-bit `M` and `qv` not below the least exponent. -/
theorem nearest_core (X : ℚ) (q : Int) (m : Nat)
    (hge : 8388608 ≤ X * (2 : ℚ) ^ (-q) ∨ q = -149)
    (hnear : ∀ k : Int, |(m : ℚ) - X * (2 : ℚ) ^ (-q)| ≤ |(k : ℚ) - X * (2 : ℚ) ^ (-q)|)
    (M : Int) (qv : Int) (hM : |M| < 16777216) (hqv : -149 ≤ qv) :
    |(m : ℚ) * (2 : ℚ) ^ q - X| ≤ |(M : ℚ) * (2 : ℚ) ^ qv - X| := by
  have hpos : ∀ z : Int, (0 : ℚ) < (2 : ℚ) ^ z := fun z => zpow_pos (by norm_num) z
  set s : ℚ := X * (2 : ℚ) ^ (-q) with hs
  have hX : X = s * (2 : ℚ) ^ q := by
    rw [hs, mul_assoc, ← zpow_add₀ two_ne_zero]; simp
  have hMv : (M : ℚ) * (2 : ℚ) ^ qv = (M : ℚ) * (2 : ℚ) ^ (qv - q) * (2 : ℚ) ^ q := by
    rw [mul_assoc, ← zpow_add₀ two_ne_zero]; simp
  have key : |(m : ℚ) - s| ≤ |(M : ℚ) * (2 : ℚ) ^ (qv - q) - s| := by
    rcases le_or_lt q qv with h | h
    · obtain ⟨j, hj⟩ := Int.eq_ofNat_of_zero_le (show 0 ≤ qv - q by omega)
      have := hnear (M * 2 ^ j)
      rw [hj, zpow_natCast]
      push_cast at this
      exact this
    · have hs23 : 8388608 ≤ s := by
        rcases hge with h1 | h1
        · exact h1
        · omega
      have hMq : |(M : ℚ)| < 16777216 := by
        have : ((|M| : Int) : ℚ) < ((16777216 : Int) : ℚ) := Int.cast_lt.mpr hM
        rw [Int.cast_abs] at this
        exact_mod_cast this
      have hp : (2 : ℚ) ^ (qv - q) ≤ (2 : ℚ) ^ (-1 : Int) :=
        zpow_le_zpow_right₀ (by norm_num) (by omega)
      have hp' : (2 : ℚ) ^ (-1 : Int) = 1 / 2 := by norm_num
      have ht : (M : ℚ) * (2 : ℚ) ^ (qv - q) < 8388608 := by
        have h1 : (M : ℚ) * (2 : ℚ) ^ (qv - q) ≤ |(M : ℚ)| * (2 : ℚ) ^ (qv - q) :=
          mul_le_mul_of_nonneg_right (le_abs_self _) (hpos _).le
        have h2 : |(M : ℚ)| * (2 : ℚ) ^ (qv - q) ≤ |(M : ℚ)| * (1 / 2) := by
          rw [← hp']
          exact mul_le_mul_of_nonneg_left hp (abs_nonneg _)
        linarith
      have h23 := hnear 8388608
      rw [abs_of_nonpos (show ((8388608 : Int) : ℚ) - s ≤ 0 by push_cast; linarith)] at h23
      push_cast at h23
      rw [abs_of_nonpos (show (M : ℚ) * (2 : ℚ) ^ (qv - q) - s ≤ 0 by linarith)]
      linarith
  have e1 : (m : ℚ) * (2 : ℚ) ^ q - X = ((m : ℚ) - s) * (2 : ℚ) ^ q := by
    rw [hX]; ring
  have e2 : (M : ℚ) * (2 : ℚ) ^ qv - X
      = ((M : ℚ) * (2 : ℚ) ^ (qv - q) - s) * (2 : ℚ) ^ q := by
    rw [hMv, hX]; ring
  rw [e1, e2, abs_mul, abs_mul]
  exact mul_le_mul_of_nonneg_right key (abs_nonneg _)

/-- Every float has the form `M * 2 ^ qexp` with a 24-bit integer `M`. -/
theorem val_form (v : Float32) :
    ∃ M : Int, |M| < 16777216 ∧ v.val = (M : ℚ) * (2 : ℚ) ^ v.qexp ∧ -149 ≤ v.qexp := by
  have hm : v.mant < 16777216 := by
    have := v.frac_lt
    unfold mant; split <;> omega
  have hq : -149 ≤ v.qexp := by
    unfold qexp
    have : 1 ≤ max v.expo 1 := le_max_right _ _
    omega
  cases hs : v.sign
  · refine ⟨(v.mant : Int), ?_, ?_, hq⟩
    · rw [abs_of_nonneg (by positivity)]; exact_mod_cast hm
    · simp [val, hs]
  · refine ⟨-(v.mant : Int), ?_, ?_, hq⟩
    · rw [abs_neg, abs_of_nonneg (by positivity)]; exact_mod_cast hm
    · simp [val, hs]

/-- A nearest integer is at most one half above the value. -/
theorem nearest_sub_le (m : Nat) (s : ℚ)
    (hnear : ∀ k : Int, |(m : ℚ) - s| ≤ |(k : ℚ) - s|) : (m : ℚ) - 1 / 2 ≤ s := by
  by_contra hc
  have h := hnear ((m : Int) - 1)
  push_cast at h
  rw [abs_of_nonneg (by linarith)] at h
  rcases le_or_lt 0 ((m : ℚ) - 1 - s) with h1 | h1
  · rw [abs_of_nonneg h1] at h; linarith
  · rw [abs_of_neg h1] at h; linarith

/-- A finite float that is not a zero has a positive significand. -/
theorem mant_pos (x : Float32) (hz : x.isZero = false) : 0 < x.mant := by
  simp only [isZero, Bool.and_eq_false_imp, decide_eq_true_eq, decide_eq_false_iff_not] at hz
  unfold mant
  split
  · rename_i h; have := hz h; omega
  · omega

/-- The quotient of the values of two floats, through their significands and signs. -/
theorem val_div_val (a b : Float32) (hb : 0 < b.mant) :
    a.val / b.val = (if xor a.sign b.sign then -1 else 1) *
      ((a.mant : ℚ) / b.mant * (2 : ℚ) ^ (a.qexp - b.qexp)) := by
  have hbq : (b.mant : ℚ) ≠ 0 := by exact_mod_cast hb.ne'
  have hp : (2 : ℚ) ^ b.qexp ≠ 0 := (zpow_pos (by norm_num) _).ne'
  rw [zpow_sub₀ two_ne_zero]
  unfold val
  cases a.sign <;> cases b.sign <;> simp <;> field_simp

/-- A float whose exponent field is not all ones is not NaN. -/
theorem isNaN_of_expo (x : Float32) (h : x.expo ≠ 255) : x.isNaN = false := by
  simp [isNaN, h]

/-- A float whose exponent field is not all ones is not an infinity. -/
theorem isInf_of_expo (x : Float32) (h : x.expo ≠ 255) : x.isInf = false := by
  simp [isInf, h]

/-- The rational value of a finite float is `val`. -/
theorem val_of_toRat (v : Float32) (qv : ℚ) (h : v.toRat = some qv) : qv = v.val := by
  unfold toRat at h
  split at h
  · exact absurd h (by simp)
  · exact (Option.some.inj h).symm

/-- An infinity has no rational value. -/
theorem toRat_inf (s : Bool) : (inf s).toRat = none := by
  cases s <;> rfl

/-- Both zeros have the rational value `0`. -/
theorem toRat_zero (s : Bool) : (zero s).toRat = some 0 := by
  cases s <;> simp [toRat, zero, ofBits, val, mant]

/-- IEEE-754 correctness of `div` on finite operands with a denominator that is not a zero:
the result is not NaN; when it is finite, no finite float is closer to the exact quotient;
and it is infinite only if the exact quotient has magnitude at least `2^128 - 2^103`. -/
theorem div_correct (a b : Float32) (ha : a.expo ≠ 255) (hb : b.expo ≠ 255)
    (hbz : b.isZero = false) :
    (div a b).isNaN = false ∧
    (∀ y, (div a b).toRat = some y → ∀ (v : Float32) (qv : ℚ), v.toRat = some qv →
      |y - a.val / b.val| ≤ |qv - a.val / b.val|) ∧
    ((div a b).isInf = true → (2 : ℚ) ^ 128 - (2 : ℚ) ^ 103 ≤ |a.val / b.val|) := by
  have haN := isNaN_of_expo a ha
  have hbN := isNaN_of_expo b hb
  have haI := isInf_of_expo a ha
  have hbI := isInf_of_expo b hb
  have hbm := mant_pos b hbz
  cases haz : a.isZero
  · -- both operands are finite and not zero
    have ham := mant_pos a haz
    have hdiv : div a b = ofBits ((if xor a.sign b.sign then 2147483648 else 0) +
        roundMag a.mant b.mant (a.qexp - b.qexp)) := by
      simp [div, haN, hbN, haI, hbI, hbz, haz]
    obtain ⟨q, m, hB, hq, hlt, hge, hnear⟩ := roundMag_spec a.mant b.mant (a.qexp - b.qexp) ham hbm
    set X : ℚ := (a.mant : ℚ) / b.mant * (2 : ℚ) ^ (a.qexp - b.qexp) with hX
    have hXpos : 0 < X := by
      have h1 : (0 : ℚ) < a.mant := by exact_mod_cast ham
      have h2 : (0 : ℚ) < b.mant := by exact_mod_cast hbm
      have h3 : (0 : ℚ) < (2 : ℚ) ^ (a.qexp - b.qexp) := zpow_pos (by norm_num) _
      positivity
    have hquot := val_div_val a b hbm
    rw [← hX] at hquot
    obtain ⟨hmu, hml⟩ := nearest_bounds m _ hnear
    have hm := hmu hlt
    have hm2 : 8388608 ≤ m ∨ q = -149 := hge.imp hml id
    rw [hdiv, hB]
    rcases Nat.lt_or_ge ((q + 149).toNat * 8388608 + m) 2139095040 with hfin | hinf
    · rw [min_eq_left hfin.le]
      obtain ⟨hexp, hval⟩ := ofBits_val (xor a.sign b.sign) q m hq hm hm2 hfin
      refine ⟨isNaN_of_expo _ hexp, ?_, by rw [isInf_of_expo _ hexp]; simp⟩
      intro y hy v qv hv
      simp only [toRat, hexp, if_false, Option.some.injEq] at hy
      obtain rfl := val_of_toRat v qv hv
      obtain ⟨M, hM, hMv, hqv⟩ := val_form v
      rw [← hy, hval, hquot, hMv]
      cases hs : xor a.sign b.sign
      · simp only [Bool.false_eq_true, if_false, one_mul]
        exact nearest_core X q m hge hnear M v.qexp hM hqv
      · simp only [if_true]
        have h := nearest_core X q m hge hnear (-M) v.qexp (by rw [abs_neg]; exact hM) hqv
        have e1 : -1 * (m : ℚ) * (2 : ℚ) ^ q - -1 * X = -((m : ℚ) * (2 : ℚ) ^ q - X) := by ring
        have e2 : (M : ℚ) * (2 : ℚ) ^ v.qexp - -1 * X
            = -(((-M : Int) : ℚ) * (2 : ℚ) ^ v.qexp - X) := by push_cast; ring
        rw [e1, e2, abs_neg, abs_neg]
        exact h
    · rw [min_eq_right hinf]
      have hinfv : ofBits ((if xor a.sign b.sign then 2147483648 else 0) + 2139095040)
          = inf (xor a.sign b.sign) := rfl
      rw [hinfv]
      refine ⟨by cases xor a.sign b.sign <;> decide, ?_, ?_⟩
      · intro y hy
        rw [toRat_inf] at hy
        exact absurd hy (by simp)
      · intro _
        have hs := nearest_sub_le m _ hnear
        have hXq : X = X * (2 : ℚ) ^ (-q) * (2 : ℚ) ^ q := by
          rw [mul_assoc, ← zpow_add₀ two_ne_zero]; simp
        have habs : |a.val / b.val| = X := by
          rw [hquot]
          cases xor a.sign b.sign
          · simp [abs_of_pos hXpos]
          · simp [abs_of_pos hXpos]
        rw [habs]
        have hq104 : 104 ≤ q := by omega
        have hp104 : (2 : ℚ) ^ (104 : Int) ≤ (2 : ℚ) ^ q :=
          zpow_le_zpow_right₀ (by norm_num) hq104
        have hp104' : (2 : ℚ) ^ (104 : Int) = (2 : ℚ) ^ 104 := by norm_cast
        have hsbig : (16777216 : ℚ) - 1 / 2 ≤ X * (2 : ℚ) ^ (-q) ∨
            ((2 : ℚ) ^ (105 : Int) ≤ (2 : ℚ) ^ q ∧ 8388608 ≤ X * (2 : ℚ) ^ (-q)) := by
          rcases Nat.lt_or_ge m 16777216 with h1 | h1
          · right
            have hq105 : 105 ≤ q := by omega
            refine ⟨zpow_le_zpow_right₀ (by norm_num) hq105, ?_⟩
            rcases hge with h2 | h2
            · exact h2
            · omega
          · left
            have : (16777216 : ℚ) ≤ m := by exact_mod_cast h1
            linarith
        rw [hXq]
        rcases hsbig with h1 | ⟨h1, h2⟩
        · calc (2 : ℚ) ^ 128 - (2 : ℚ) ^ 103 = (16777216 - 1 / 2) * (2 : ℚ) ^ 104 := by norm_num
            _ ≤ (X * (2 : ℚ) ^ (-q)) * (2 : ℚ) ^ 104 :=
                mul_le_mul_of_nonneg_right h1 (by positivity)
            _ ≤ (X * (2 : ℚ) ^ (-q)) * (2 : ℚ) ^ q := by
                rw [← hp104']
                exact mul_le_mul_of_nonneg_left hp104 (by linarith)
        · have hp105' : (2 : ℚ) ^ (105 : Int) = (2 : ℚ) ^ 105 := by norm_cast
          calc (2 : ℚ) ^ 128 - (2 : ℚ) ^ 103 ≤ 8388608 * (2 : ℚ) ^ 105 := by norm_num
            _ ≤ (X * (2 : ℚ) ^ (-q)) * (2 : ℚ) ^ 105 :=
                mul_le_mul_of_nonneg_right h2 (by positivity)
            _ ≤ (X * (2 : ℚ) ^ (-q)) * (2 : ℚ) ^ q := by
                rw [← hp105']
                exact mul_le_mul_of_nonneg_left h1 (by linarith)
  · -- a zero divided by a finite float that is not a zero
    have hdiv : div a b = zero (xor a.sign b.sign) := by
      simp [div, haN, hbN, haI, hbI, hbz, haz]
    have hav : a.val = 0 := by
      simp only [isZero, Bool.and_eq_true, decide_eq_true_eq] at haz
      simp [val, mant, haz.1, haz.2]
    rw [hdiv, hav, zero_div]
    refine ⟨by cases xor a.sign b.sign <;> decide, ?_, ?_⟩
    · intro y hy v qv _
      rw [toRat_zero] at hy
      obtain rfl := Option.some.inj hy
      simp
    · intro h
      exfalso
      revert h
      cases xor a.sign b.sign <;> decide

/-! ## `divide` -/

/-- The text of the error that `divide` creates. -/
theorem sprintf_message :
    fmt.Sprintf "division by zero is not allowed" [] = some "division by zero is not allowed" := by
  rfl

/-- The run of `divide` on a denominator that compares equal to zero. -/
theorem divide_of_eq_zero (a b : Float32) (w : World)
    (h : Float32.eq b (Float32.ofInt 0) = true) :
    divide a b w = .ok ((Float32.ofInt 0, some { msg := "division by zero is not allowed" }),
      { w with events := w.events ++ [Event.call "divide", Event.call "fmt.Errorf",
          Event.errorValue "division by zero is not allowed"] }) := by
  simp [divide, bind, Exec.bind, enter, h, fmt.Errorf, sprintf_message, pure, Exec.pure]

/-- The run of `divide` on a denominator that does not compare equal to zero. -/
theorem divide_of_ne_zero (a b : Float32) (w : World)
    (h : Float32.eq b (Float32.ofInt 0) = false) :
    divide a b w = .ok ((Float32.div a b, none),
      { w with events := w.events ++ [Event.call "divide"] }) := by
  simp [divide, bind, Exec.bind, enter, h, pure, Exec.pure]

/-- The constant `0` converts to positive zero. -/
theorem ofInt_zero : Float32.ofInt 0 = Float32.zero false := by decide

/-- Both zeros compare equal to the constant `0`. -/
theorem zero_eq_zero (s : Bool) : Float32.eq (Float32.zero s) (Float32.ofInt 0) = true := by
  cases s <;> decide

/-- A denominator that compares equal to zero is one of the two zeros. -/
theorem isZero_of_eq_zero (b : Float32) (h : Float32.eq b (Float32.ofInt 0) = true) :
    b.isZero = true := by
  rw [ofInt_zero] at h
  simp only [Float32.eq, Bool.and_eq_true, Bool.or_eq_true, decide_eq_true_eq] at h
  rcases h.2 with h1 | h1
  · rw [h1]; decide
  · exact h1.1

/-- A finite denominator that does not compare equal to zero is not a zero. -/
theorem isZero_of_ne_zero (b : Float32) (h : Float32.eq b (Float32.ofInt 0) = false) :
    b.isZero = false := by
  cases hz : b.isZero
  · rfl
  · exfalso
    have hn : b.isNaN = false := by
      simp only [isZero, Bool.and_eq_true, decide_eq_true_eq] at hz
      exact isNaN_of_expo b (by omega)
    rw [ofInt_zero] at h
    have h0 : (Float32.zero false).isNaN = false := by decide
    have h1 : (Float32.zero false).isZero = true := by decide
    simp [Float32.eq, hn, hz, h0, h1] at h

/-- Dividing by a zero gives an infinity or NaN. -/
theorem div_zero_not_finite (a b : Float32) (hb : b.isZero = true) :
    (Float32.div a b).isFinite = false := by
  have hbn : b.isNaN = false := by
    simp only [isZero, Bool.and_eq_true, decide_eq_true_eq] at hb
    exact isNaN_of_expo b (by omega)
  have hbi : b.isInf = false := by
    simp only [isZero, Bool.and_eq_true, decide_eq_true_eq] at hb
    exact isInf_of_expo b (by omega)
  unfold Float32.div
  simp only [hbn, hbi, hb, Bool.or_false]
  cases a.isNaN <;> cases a.isInf <;> cases a.isZero <;> cases (xor a.sign b.sign) <;>
    simp only [Bool.false_eq_true, if_true, if_false] <;> decide

/-- A float with a rational value is finite. -/
theorem expo_of_toRat (v : Float32) (qv : ℚ) (h : v.toRat = some qv) : v.expo ≠ 255 := by
  intro he
  simp [toRat, he] at h

/-- The only finite float within `1 / (3 * 2^22)` of `10 / 3` is the one with bit pattern
`0x40555555`. -/
theorem ten_thirds_unique (v : Float32) (hfin : v.expo ≠ 255)
    (h : |v.val - 10 / 3| ≤ 1 / 12582912) : v = ofBits 1079334229 := by
  obtain ⟨h1, h2⟩ := abs_le.mp h
  obtain ⟨s, e, f, he, hf⟩ := v
  simp only at hfin
  have hfq : (f : ℚ) < 8388608 := by exact_mod_cast hf
  have hf0 : (0 : ℚ) ≤ f := by positivity
  have hpos : ∀ z : Int, (0 : ℚ) < (2 : ℚ) ^ z := fun z => zpow_pos (by norm_num) z
  cases s
  · simp only [val, mant, qexp, Bool.false_eq_true, if_false, one_mul] at h1 h2
    rcases Nat.lt_trichotomy e 128 with hlt | heq | hgt
    · -- below 2
      exfalso
      have hq : (((max e 1 : Nat) : Int) - 150) ≤ -23 := by
        have : max e 1 ≤ 127 := max_le (by omega) (by omega)
        omega
      have hp : (2 : ℚ) ^ (((max e 1 : Nat) : Int) - 150) ≤ (2 : ℚ) ^ (-23 : Int) :=
        zpow_le_zpow_right₀ (by norm_num) hq
      have hp' : (2 : ℚ) ^ (-23 : Int) = 1 / 8388608 := by norm_num
      have hm : ((if e = 0 then f else f + 8388608 : Nat) : ℚ) ≤ 16777216 := by
        split
        · linarith
        · push_cast; linarith
      have hm0 : (0 : ℚ) ≤ ((if e = 0 then f else f + 8388608 : Nat) : ℚ) := by positivity
      have : ((if e = 0 then f else f + 8388608 : Nat) : ℚ) *
          (2 : ℚ) ^ (((max e 1 : Nat) : Int) - 150) ≤ 16777216 * (1 / 8388608) := by
        rw [← hp']
        exact mul_le_mul hm hp (hpos _).le (by norm_num)
      linarith
    · subst heq
      have e1 : (((max 128 1 : Nat) : Int) - 150) = -22 := by decide
      rw [e1] at h1 h2
      simp only [show ¬ (128 = 0) by decide, if_false] at h1 h2
      have hp' : (2 : ℚ) ^ (-22 : Int) = 1 / 4194304 := by norm_num
      rw [hp'] at h1 h2
      push_cast at h1 h2
      have g1 : (41943039 : ℚ) ≤ 3 * f + 25165824 := by linarith
      have g2 : (3 : ℚ) * f + 25165824 ≤ 41943041 := by linarith
      have g1' : 41943039 ≤ 3 * f + 25165824 := by exact_mod_cast g1
      have g2' : 3 * f + 25165824 ≤ 41943041 := by exact_mod_cast g2
      have hf' : f = 5592405 := by omega
      subst hf'
      rfl
    · -- at or above 4
      exfalso
      have hq : (-21 : Int) ≤ (((max e 1 : Nat) : Int) - 150) := by
        have : 129 ≤ max e 1 := le_max_of_le_left (by omega)
        omega
      have hp : (2 : ℚ) ^ (-21 : Int) ≤ (2 : ℚ) ^ (((max e 1 : Nat) : Int) - 150) :=
        zpow_le_zpow_right₀ (by norm_num) hq
      have hp' : (2 : ℚ) ^ (-21 : Int) = 1 / 2097152 := by norm_num
      have hm : (8388608 : ℚ) ≤ ((if e = 0 then f else f + 8388608 : Nat) : ℚ) := by
        rw [if_neg (by omega)]
        push_cast; linarith
      have : 8388608 * (1 / 2097152) ≤ ((if e = 0 then f else f + 8388608 : Nat) : ℚ) *
          (2 : ℚ) ^ (((max e 1 : Nat) : Int) - 150) := by
        rw [← hp']
        exact mul_le_mul hm hp (hpos _).le (by positivity)
      linarith
  · exfalso
    simp only [val, if_true] at h1
    have hm0 : (0 : ℚ) ≤ ((mant ⟨true, e, f, he, hf⟩ : Nat) : ℚ) := by positivity
    have := mul_nonneg hm0 (hpos (qexp ⟨true, e, f, he, hf⟩)).le
    linarith

/-- The run of `main` from the initial world. -/
theorem main_run :
    main World.init = .ok ((), ⟨"1.0.0",
      "Value of z: 10\nx == y: true\nx != y: false\nx > y: false\nx == z: true\n",
      [Event.call "main", Event.call "fmt.Printf", Event.call "fmt.Printf",
        Event.call "fmt.Printf", Event.call "fmt.Printf", Event.call "fmt.Printf"], []⟩) := by
  rfl

/-! ## Runs of `main` -/

/-- Running one computation after another adds the two logs. -/
theorem avoids_bind {α β : Type} (m : Exec α) (f : α → Exec β) (w : World)
    (hm : AvoidsDivide w.events (m w))
    (hf : ∀ a w1, AvoidsDivide w1.events (f a w1)) :
    AvoidsDivide w.events (Exec.bind m f w) := by
  unfold Exec.bind
  obtain ⟨l, hl, h1, h2⟩ := hm
  cases hr : m w with
  | error e =>
    rw [hr] at hl
    cases e with
    | sigpipe log => exact ⟨l, hl, h1, h2⟩
    | panic msg => simp [finalLog] at hl
    | outOfFuel => simp [finalLog] at hl
    | unmodelled => simp [finalLog] at hl
  | ok p =>
    obtain ⟨a, w1⟩ := p
    rw [hr] at hl
    simp only [finalLog, Option.some.injEq] at hl
    obtain ⟨l2, hl2, h3, h4⟩ := hf a w1
    refine ⟨l ++ l2, ?_, ?_, ?_⟩
    · show finalLog (f a w1) = _
      rw [hl2, hl, List.append_assoc]
    · simp [h1, h3]
    · simp [h2, h4]

/-- Entering a function other than `divide` and `fmt.Errorf`. -/
theorem avoids_enter (fn : String) (w : World) (h1 : fn ≠ "divide") (h2 : fn ≠ "fmt.Errorf") :
    AvoidsDivide w.events (enter fn w) :=
  ⟨[Event.call fn], rfl, by simp [h1.symm], by simp [h2.symm]⟩

/-- A write by a function other than `divide` and `fmt.Errorf`, whatever its outcome. -/
theorem avoids_write (fn s : String) (w : World) (h1 : fn ≠ "divide")
    (h2 : fn ≠ "fmt.Errorf") :
    AvoidsDivide w.events (fmt.write fn (some s) w) := by
  unfold fmt.write
  simp only
  split
  · exact ⟨[Event.call fn], rfl, by simp [h1.symm], by simp [h2.symm]⟩
  · exact ⟨[Event.call fn], rfl, by simp [h1.symm], by simp [h2.symm]⟩
  · exact ⟨[Event.call fn, Event.errorValue _], rfl, by simp [h1.symm], by simp [h2.symm]⟩
  · exact ⟨[Event.call fn], rfl, by simp [h1.symm], by simp [h2.symm]⟩

/-- A run that returned or was ended by SIGPIPE has exit status 0 or 141. -/
theorem exit_of_finalLog {α : Type} (r : Except Abort (α × World)) (l : List Event)
    (h : finalLog r = some l) : exitCode r = some 0 ∨ exitCode r = some 141 := by
  cases r with
  | ok p => left; rfl
  | error e =>
    cases e with
    | sigpipe log => right; rfl
    | panic msg => simp [finalLog] at h
    | outOfFuel => simp [finalLog] at h
    | unmodelled => simp [finalLog] at h

/-- The text of the first line that `main` prints. -/
theorem sprintf_z : fmt.Sprintf "Value of z: %d\n" [.int 10] = some "Value of z: 10\n" := by
  rfl

/-- The text of the second line that `main` prints. -/
theorem sprintf_eq : fmt.Sprintf "x == y: %t\n" [.bool true] = some "x == y: true\n" := by rfl

/-- The text of the third line that `main` prints. -/
theorem sprintf_ne : fmt.Sprintf "x != y: %t\n" [.bool false] = some "x != y: false\n" := by
  rfl

/-- The text of the fourth line that `main` prints. -/
theorem sprintf_gt : fmt.Sprintf "x > y: %t\n" [.bool false] = some "x > y: false\n" := by rfl

/-- The text of the fifth line that `main` prints. -/
theorem sprintf_xz : fmt.Sprintf "x == z: %t\n" [.bool true] = some "x == z: true\n" := by rfl

/-- In every world `main` returns or is ended by SIGPIPE, and it adds to the log no call of
`divide` and no call of `fmt.Errorf`. -/
theorem main_avoids (w : World) : AvoidsDivide w.events (main w) := by
  have hP : ∀ (s : String) (u : World), AvoidsDivide u.events (fmt.write "fmt.Printf" (some s) u) :=
    fun s u => avoids_write _ s u (by decide) (by decide)
  unfold main
  refine avoids_bind _ _ w (avoids_enter _ w (by decide) (by decide)) ?_
  intro _ w1
  refine avoids_bind _ _ w1 (by rw [fmt.Printf, sprintf_z]; exact hP _ _) ?_
  intro _ w2
  refine avoids_bind _ _ w2 (by rw [fmt.Printf]; exact hP _ _) ?_
  intro _ w3
  refine avoids_bind _ _ w3 (by rw [fmt.Printf]; exact hP _ _) ?_
  intro _ w4
  refine avoids_bind _ _ w4 (by rw [fmt.Printf]; exact hP _ _) ?_
  intro _ w5
  refine avoids_bind _ _ w5 (by rw [fmt.Printf]; exact hP _ _) ?_
  intro _ w6
  exact ⟨[], by simp [pure, Exec.pure, finalLog], by simp, by simp⟩

/-- The run of a sequence whose first part returns. -/
theorem bind_ok {α β : Type} (m : Exec α) (f : α → Exec β) (w : World) (a : α) (w1 : World)
    (h : m w = .ok (a, w1)) : Exec.bind m f w = f a w1 := by
  unfold Exec.bind
  rw [h]

/-- Entering a function keeps the outcomes in store. -/
theorem enter_run (fn : String) (w : World) :
    ∃ w1, enter fn w = .ok ((), w1) ∧ w1.version = w.version ∧ w1.stdout = w.stdout ∧
      w1.events = w.events ++ [Event.call fn] ∧ w1.writesSucceed = w.writesSucceed :=
  ⟨_, rfl, rfl, rfl, rfl, rfl⟩

/-- A call of `fmt.Printf` in a world where every write in store succeeds: the text is
appended, the error is nil, and every write left in store succeeds. -/
theorem printf_of_succeed (format : String) (args : List GoValue) (s : String) (w : World)
    (hs : fmt.Sprintf format args = some s) (h : w.writesSucceed = true) :
    ∃ w1, fmt.Printf format args w = .ok ((s.utf8ByteSize, none), w1) ∧
      w1.version = w.version ∧ w1.stdout = w.stdout ++ s ∧
      w1.events = w.events ++ [Event.call "fmt.Printf"] ∧ w1.writesSucceed = true := by
  obtain ⟨v, so, ev, ws⟩ := w
  rw [fmt.Printf, hs]
  cases ws with
  | nil => exact ⟨_, rfl, rfl, rfl, rfl, rfl⟩
  | cons o rest =>
    simp only [World.writesSucceed, List.all_cons, Bool.and_eq_true, decide_eq_true_eq] at h
    obtain ⟨rfl, h2⟩ := h
    exact ⟨_, rfl, rfl, rfl, rfl, h2⟩

/-- The run of `main` in a world where every write succeeds: it returns, having appended the
five lines to standard output and six calls to the log. -/
theorem main_of_succeed (w : World) (h : w.writesSucceed = true) :
    ∃ w1, main w = .ok ((), w1) ∧ w1.version = w.version ∧
      w1.stdout = w.stdout ++
        "Value of z: 10\nx == y: true\nx != y: false\nx > y: false\nx == z: true\n" ∧
      w1.events = w.events ++ [Event.call "main", Event.call "fmt.Printf",
        Event.call "fmt.Printf", Event.call "fmt.Printf", Event.call "fmt.Printf",
        Event.call "fmt.Printf"] := by
  obtain ⟨w0, e0, v0, s0, l0, h0⟩ := enter_run "main" w
  rw [h] at h0
  obtain ⟨w1, e1, v1, s1, l1, h1⟩ := printf_of_succeed _ _ _ w0 sprintf_z h0
  obtain ⟨w2, e2, v2, s2, l2, h2⟩ := printf_of_succeed _ _ _ w1 sprintf_eq h1
  obtain ⟨w3, e3, v3, s3, l3, h3⟩ := printf_of_succeed _ _ _ w2 sprintf_ne h2
  obtain ⟨w4, e4, v4, s4, l4, h4⟩ := printf_of_succeed _ _ _ w3 sprintf_gt h3
  obtain ⟨w5, e5, v5, s5, l5, _⟩ := printf_of_succeed _ _ _ w4 sprintf_xz h4
  refine ⟨w5, ?_, ?_, ?_, ?_⟩
  · unfold main
    refine (bind_ok _ _ _ _ _ e0).trans ?_
    refine (bind_ok _ _ _ _ _ e1).trans ?_
    refine (bind_ok _ _ _ _ _ e2).trans ?_
    refine (bind_ok _ _ _ _ _ e3).trans ?_
    refine (bind_ok _ _ _ _ _ e4).trans ?_
    refine (bind_ok _ _ _ _ _ e5).trans ?_
    rfl
  · rw [v5, v4, v3, v2, v1, v0]
  · rw [s5, s4, s3, s2, s1, s0]
    simp only [String.append_assoc]
    rfl
  · rw [l5, l4, l3, l2, l1, l0]
    simp

/-! ## The claims -/

/-- C1: for every numerator `a`, zero included, `divide(a, 0)` returns with a non-nil error;
in particular `divide(10, 0)` does. -/
theorem divide_by_zero_fails :
    (∀ (a : Float32) (w : World), ∃ v e w1,
      divide a (Float32.ofInt 0) w = .ok ((v, some e), w1)) ∧
    (∃ v e w1, divide (Float32.ofInt 10) (Float32.ofInt 0) World.init = .ok ((v, some e), w1)) ∧
    (∃ v e w1, divide (Float32.ofInt 0) (Float32.ofInt 0) World.init = .ok ((v, some e), w1)) :=
  ⟨fun a w => ⟨_, _, _, divide_of_eq_zero a _ w (zero_eq_zero false)⟩,
    ⟨_, _, _, divide_of_eq_zero _ _ _ (zero_eq_zero false)⟩,
    ⟨_, _, _, divide_of_eq_zero _ _ _ (zero_eq_zero false)⟩⟩

/-- C2: for every numerator `a` and every denominator `b` that does not compare equal to
zero, `divide(a, b)` returns with a nil error and the value `a / b`, the IEEE-754 quotient.
For finite operands that quotient is not NaN, is a finite float nearest to the exact
rational quotient whenever it is finite, and is infinite only when the exact quotient has
magnitude at least `2^128 - 2^103`. -/
theorem divide_nonzero_succeeds (a b : Float32) (w : World)
    (hb : Float32.eq b (Float32.ofInt 0) = false) :
    ∃ w1, divide a b w = .ok ((Float32.div a b, none), w1) ∧
      ∀ qa qb : ℚ, a.toRat = some qa → b.toRat = some qb →
        (Float32.div a b).isNaN = false ∧
        (∀ y, (Float32.div a b).toRat = some y → ∀ (v : Float32) (qv : ℚ),
          v.toRat = some qv → |y - qa / qb| ≤ |qv - qa / qb|) ∧
        ((Float32.div a b).isInf = true → (2 : ℚ) ^ 128 - (2 : ℚ) ^ 103 ≤ |qa / qb|) := by
  refine ⟨_, divide_of_ne_zero a b w hb, ?_⟩
  intro qa qb hqa hqb
  have ha : a.expo ≠ 255 := by
    intro h; simp [toRat, h] at hqa
  have hbe : b.expo ≠ 255 := by
    intro h; simp [toRat, h] at hqb
  rw [val_of_toRat a qa hqa, val_of_toRat b qb hqb]
  exact div_correct a b ha hbe (isZero_of_ne_zero b hb)

/-- An instance: `divide(1, 3)` in the initial world, its result compared with the float `0`. -/
theorem divide_nonzero_succeeds_witness :
    Float32.eq (Float32.ofInt 3) (Float32.ofInt 0) = false ∧
    (Float32.ofInt 1).toRat = some 1 ∧ (Float32.ofInt 3).toRat = some 3 ∧
    (Float32.div (Float32.ofInt 1) (Float32.ofInt 3)).toRat = some (11184811 / 33554432) ∧
    (Float32.ofInt 0).toRat = some 0 ∧
    (∃ w1, divide (Float32.ofInt 1) (Float32.ofInt 3) World.init
      = .ok ((Float32.div (Float32.ofInt 1) (Float32.ofInt 3), none), w1)) ∧
    |(11184811 / 33554432 : ℚ) - 1 / 3| ≤ |(0 : ℚ) - 1 / 3| := by
  obtain ⟨w1, hrun, h⟩ :=
    divide_nonzero_succeeds (Float32.ofInt 1) (Float32.ofInt 3) World.init (by decide)
  obtain ⟨_, hnear, _⟩ := h 1 3 (by decide!) (by decide!)
  exact ⟨by decide, by decide!, by decide!, by decide!, by decide!, ⟨w1, hrun⟩,
    hnear (11184811 / 33554432) (by decide!) (Float32.ofInt 0) 0 (by decide!)⟩

/-- C3: the denominator decides whether `divide` fails: for every `b` and every two
numerators, one call returns a non-nil error exactly when the other does. -/
theorem divisor_determines_failure (b a1 a2 : Float32) (w1 w2 : World) :
    (∃ v e u, divide a1 b w1 = .ok ((v, some e), u)) ↔
      (∃ v e u, divide a2 b w2 = .ok ((v, some e), u)) := by
  cases hb : Float32.eq b (Float32.ofInt 0)
  · constructor
    · rintro ⟨v, e, u, h⟩
      rw [divide_of_ne_zero a1 b w1 hb] at h
      simp at h
    · rintro ⟨v, e, u, h⟩
      rw [divide_of_ne_zero a2 b w2 hb] at h
      simp at h
  · exact ⟨fun _ => ⟨_, _, _, divide_of_eq_zero a2 b w2 hb⟩,
      fun _ => ⟨_, _, _, divide_of_eq_zero a1 b w1 hb⟩⟩

/-- C4: when the denominator is a zero, the number returned next to the error is the
placeholder `+0` for every numerator, and it is not the quotient, which is an infinity or
NaN. -/
theorem divide_zero_placeholder (a b : Float32) (w : World)
    (hb : Float32.eq b (Float32.ofInt 0) = true) :
    ∃ e w1, divide a b w = .ok ((Float32.zero false, some e), w1) ∧
      (Float32.div a b).isFinite = false ∧ Float32.div a b ≠ Float32.zero false := by
  have hnf := div_zero_not_finite a b (isZero_of_eq_zero b hb)
  have hrun := divide_of_eq_zero a b w hb
  rw [ofInt_zero] at hrun
  refine ⟨_, _, hrun, hnf, ?_⟩
  intro h
  rw [h] at hnf
  exact absurd hnf (by decide)

/-- An instance: `divide(10, -0)` in the initial world. -/
theorem divide_zero_placeholder_witness :
    Float32.eq (Float32.zero true) (Float32.ofInt 0) = true ∧
    ∃ e w1, divide (Float32.ofInt 10) (Float32.zero true) World.init
        = .ok ((Float32.zero false, some e), w1) ∧
      (Float32.div (Float32.ofInt 10) (Float32.zero true)).isFinite = false ∧
      Float32.div (Float32.ofInt 10) (Float32.zero true) ≠ Float32.zero false :=
  ⟨by decide, divide_zero_placeholder _ _ _ (by decide)⟩

/-- C5: for every numerator `a`, the error of `divide(a, 0)` has the message
"division by zero is not allowed", which is not empty and does not depend on `a`. -/
theorem divide_error_message (a : Float32) (w : World) :
    ∃ v e w1, divide a (Float32.ofInt 0) w = .ok ((v, some e), w1) ∧
      e.msg = "division by zero is not allowed" ∧ e.msg ≠ "" :=
  ⟨_, _, _, divide_of_eq_zero a _ w (zero_eq_zero false), rfl, by decide⟩

/-- C6: run from the initial world, `main` returns and standard output consists of the lines
"Value of z: 10", "x == y: true", "x != y: false", "x > y: false", "x == z: true", in this
order and nothing else. -/
theorem main_output :
    ∃ w1, main World.init = .ok ((), w1) ∧
      w1.stdout = "Value of z: 10\nx == y: true\nx != y: false\nx > y: false\nx == z: true\n" ∧
      lines w1.stdout =
        ["Value of z: 10", "x == y: true", "x != y: false", "x > y: false", "x == z: true"] :=
  ⟨_, main_run, rfl, by decide⟩

/-- C7: `divide` is repeatable and has no side effect: in any two worlds, and again in the
world left by the first call, it returns the same value and error, and it leaves `version`
and standard output as they were. -/
theorem divide_pure (a b : Float32) (w1 w2 : World) :
    ∃ r u1 u2 u3, divide a b w1 = .ok (r, u1) ∧ divide a b w2 = .ok (r, u2) ∧
      divide a b u1 = .ok (r, u3) ∧
      u1.version = w1.version ∧ u1.stdout = w1.stdout ∧
      u2.version = w2.version ∧ u2.stdout = w2.stdout ∧
      u3.version = w1.version ∧ u3.stdout = w1.stdout := by
  cases hb : Float32.eq b (Float32.ofInt 0)
  · exact ⟨_, _, _, _, divide_of_ne_zero a b w1 hb, divide_of_ne_zero a b w2 hb,
      divide_of_ne_zero a b _ hb, rfl, rfl, rfl, rfl, rfl, rfl⟩
  · exact ⟨_, _, _, _, divide_of_eq_zero a b w1 hb, divide_of_eq_zero a b w2 hb,
      divide_of_eq_zero a b _ hb, rfl, rfl, rfl, rfl, rfl, rfl⟩

/-- C8 as stated fails: when the reader of standard output goes away after the
first line the process is ended by SIGPIPE and the exit status is 141, not 0; and when
standard output is closed `main` returns, but each `fmt.Printf` has produced an error value,
which `main` discards. -/
theorem main_exit_counterexample :
    exitCode (main (World.withWrites [WriteOutcome.ok, WriteOutcome.sigpipe])) = some 141 ∧
    (∃ w1, main (World.withWrites
        [WriteOutcome.fail 0 "write /dev/stdout: bad file descriptor"]) = .ok ((), w1) ∧
      Event.errorValue "write /dev/stdout: bad file descriptor" ∈ w1.events) ∧
    ¬ (∀ w : World, exitCode (main w) = some 0) := by
  refine ⟨rfl, ⟨_, rfl, by decide⟩, ?_⟩
  intro h
  exact absurd (h (World.withWrites [WriteOutcome.sigpipe])) (by decide)

/-- C8, amended: in every world `main` returns or is ended by SIGPIPE, so the exit status is
0 or 141, and it adds to the log no call of `divide` and no call of `fmt.Errorf`; when every
write to standard output succeeds, `main` returns, the exit status is 0, and the log gains
the calls of `main` and of `fmt.Printf` only, so no error value; one call of `divide` is found
in the block that the source keeps inside a comment. -/
theorem main_no_divide_path (w : World) :
    (∃ l, finalLog (main w) = some (w.events ++ l) ∧
      Event.call "divide" ∉ l ∧ Event.call "fmt.Errorf" ∉ l) ∧
    (exitCode (main w) = some 0 ∨ exitCode (main w) = some 141) ∧
    (w.writesSucceed = true →
      ∃ w1, main w = .ok ((), w1) ∧ exitCode (main w) = some 0 ∧
        w1.events = w.events ++ [Event.call "main", Event.call "fmt.Printf",
          Event.call "fmt.Printf", Event.call "fmt.Printf", Event.call "fmt.Printf",
          Event.call "fmt.Printf"]) ∧
    (Exec.world? (commentedBlock World.init)).map
      (fun u => u.events.count (Event.call "divide")) = some 1 := by
  have hav := main_avoids w
  refine ⟨hav, ?_, ?_, by decide!⟩
  · obtain ⟨l, hl, _⟩ := hav
    exact exit_of_finalLog _ _ hl
  · intro h
    obtain ⟨w1, hrun, _, _, hev⟩ := main_of_succeed w h
    exact ⟨w1, hrun, by rw [hrun]; rfl, hev⟩

/-- An instance: `main` in the initial world, where every write succeeds. -/
theorem main_no_divide_path_witness :
    World.init.writesSucceed = true ∧
    ∃ w1, main World.init = .ok ((), w1) ∧ exitCode (main World.init) = some 0 ∧
      w1.events = World.init.events ++ [Event.call "main", Event.call "fmt.Printf",
        Event.call "fmt.Printf", Event.call "fmt.Printf", Event.call "fmt.Printf",
        Event.call "fmt.Printf"] :=
  ⟨by decide, (main_no_divide_path World.init).2.2.1 (by decide)⟩

/-- C9: `divide(10, 3)` returns with a nil error and the float with bit pattern `0x40555555`,
whose exact value `13981013 / 4194304` is within `1e-7` of `3.3333333`, differs from `10 / 3`
by less than `1e-6`, and is the finite float nearest to `10 / 3`: no finite float is closer,
and a finite float that is as close is this one. -/
theorem divide_ten_three (w : World) :
    ∃ r w1, divide (Float32.ofInt 10) (Float32.ofInt 3) w = .ok ((r, none), w1) ∧
      r.toBits = 1079334229 ∧ r.toRat = some (13981013 / 4194304) ∧
      |(13981013 / 4194304 : ℚ) - 33333333 / 10000000| < 1 / 10000000 ∧
      |(13981013 / 4194304 : ℚ) - 10 / 3| < 1 / 1000000 ∧
      (∀ (v : Float32) (qv : ℚ), v.toRat = some qv →
        |(13981013 / 4194304 : ℚ) - 10 / 3| ≤ |qv - 10 / 3|) ∧
      (∀ (v : Float32) (qv : ℚ), v.toRat = some qv →
        |qv - 10 / 3| ≤ |(13981013 / 4194304 : ℚ) - 10 / 3| → v = r) := by
  have hr : (Float32.div (Float32.ofInt 10) (Float32.ofInt 3)).toRat
      = some (13981013 / 4194304) := by decide!
  have hd : |(13981013 / 4194304 : ℚ) - 10 / 3| = 1 / 12582912 := by
    rw [abs_of_neg (by norm_num)]; norm_num
  refine ⟨_, _, divide_of_ne_zero _ _ w (by decide), by decide, hr, ?_, ?_, ?_, ?_⟩
  · rw [abs_lt]; constructor <;> norm_num
  · rw [hd]; norm_num
  · intro v qv hv
    have h := (div_correct (Float32.ofInt 10) (Float32.ofInt 3) (by decide) (by decide)
      (by decide)).2.1 _ hr v qv hv
    have e10 : (Float32.ofInt 10).val = 10 := by decide!
    have e3 : (Float32.ofInt 3).val = 3 := by decide!
    rw [e10, e3] at h
    exact h
  · intro v qv hv hle
    have hdiv : Float32.div (Float32.ofInt 10) (Float32.ofInt 3) = ofBits 1079334229 := by
      decide
    rw [hdiv, hd, val_of_toRat v qv hv] at *
    exact ten_thirds_unique v (expo_of_toRat v _ hv) hle

/-- An instance: the result of `divide(10, 3)` compared with the next float above it. -/
theorem divide_ten_three_witness :
    (Float32.ofBits 1079334230).toRat = some (6990507 / 2097152) ∧
    |(13981013 / 4194304 : ℚ) - 10 / 3| ≤ |(6990507 / 2097152 : ℚ) - 10 / 3| := by
  obtain ⟨_, _, _, _, _, _, _, h, _⟩ := divide_ten_three World.init
  exact ⟨by decide!, h (Float32.ofBits 1079334230) _ (by decide!)⟩

/-- C10: a negative-zero denominator is rejected like a positive zero: for every numerator
the two calls return the same placeholder `+0`, which is neither an infinity nor NaN, and
the same error, with the message "division by zero is not allowed". -/
theorem divide_negative_zero (a : Float32) (w : World) :
    ∃ r e w1, divide a (Float32.zero true) w = .ok ((r, some e), w1) ∧
      divide a (Float32.zero false) w = .ok ((r, some e), w1) ∧
      e.msg = "division by zero is not allowed" ∧
      r = Float32.zero false ∧ r.isInf = false ∧ r.isNaN = false :=
  ⟨_, _, _, divide_of_eq_zero a _ w (zero_eq_zero true),
    divide_of_eq_zero a _ w (zero_eq_zero false), rfl, ofInt_zero, by decide, by decide⟩

end GoLearning
